import Mathlib

/-!
Verification of the coalescing interval-set component (`src/range.rs`,
`src/rangeset.rs`) of the repository.

The data model is embedded shallowly:

* a Rust `(i32, i32)` interval becomes `Interval := Int × Int` (the programs
  under verification never exercise `i32` overflow on the inputs considered,
  and all arithmetic performed on bounds is comparison, `min`/`max` and the
  subtraction in `range_size`, so `Int` is a faithful carrier);
* the `RangeSet(pub Vec<i32>)` boundary vector becomes a `List Int`;
* `Vec::insert`, `Vec::remove`, indexed writes and reads become
  `List.insertIdx`, `List.eraseIdx`, `List.set`, `List.getElem?`;
* Rust functions that can panic (`panic!("Unknown state")`,
  `.expect(..)`) return `Option`, with `none` modelling the panic;
* the recursion in `RangeSet::insert` (the slow fallback path calls
  `insert` again) is modelled with a fuel parameter; the top-level entry
  point supplies `length + 1` fuel, which is strictly more than the
  possible recursion depth (every recursive call happens after at least two
  boundaries were removed, or repeats the identical arguments forever,
  i.e. the original program diverges); `none` therefore models
  divergence or panic.
-/

namespace Aoc22

abbrev Interval : Type := Int × Int

namespace Ranging

/-- `Ranging::range_size for (i32, i32)` from `src/range.rs`. -/
def range_size (s : Interval) : Int := s.2 - s.1

/-- `Ranging::overlaps for (i32, i32)` from `src/range.rs`:
`if other.1 < self.0 { return false } if other.0 > self.1 { return false } true`. -/
def overlaps (s other : Interval) : Bool :=
  if other.2 < s.1 then false
  else if other.1 > s.2 then false
  else true

/-- `Ranging::contains_inclusive` from `src/range.rs`. -/
def contains_inclusive (s other : Interval) : Bool :=
  s.1 ≤ other.1 && s.2 ≥ other.2

/-- `Ranging::contains_exclusive` from `src/range.rs`. -/
def contains_exclusive (s other : Interval) : Bool :=
  s.1 < other.1 && s.2 > other.2

/-- `Ranging::touches` from `src/range.rs`. -/
def touches (s other : Interval) : Bool :=
  if other.2 == s.1 then true
  else if other.1 == s.2 then true
  else false

/-- `Ranging::merge` from `src/range.rs`. -/
def merge (s other : Interval) : Interval :=
  (min s.1 other.1, max s.2 other.2)

/-- `Ranging::remove for (i32, i32)` from `src/range.rs` (interval
subtraction). The final `panic!("Unknown state")` branch is modelled as
`none`. -/
def remove (s cut : Interval) : Option (List Interval) :=
  if contains_inclusive cut s then some []
  else if contains_exclusive s cut then some [(s.1, cut.1), (cut.2, s.2)]
  else if s.2 > cut.2 then some [(cut.2, s.2)]
  else if s.1 < cut.1 then some [(s.1, cut.1)]
  else none

end Ranging

/-- The loop of Rust's `slice::binary_search_by` (Rust 2022-era standard
library), specialised to `Int` comparison, embedded verbatim: the repository
calls `self.0.binary_search(n)` on its boundary vector and also relies on its
behaviour on vectors its own bugs have corrupted, so the concrete standard
algorithm is modelled rather than a specification of it. The first argument
is structural recursion fuel; every call site keeps the invariant
`right - left ≤ fuel` (the window shrinks strictly each iteration), under
which the fuel never runs out and the function returns exactly what the
Rust loop returns. -/
def binarySearchAux (xs : List Int) (v : Int) : Nat → Nat → Nat → Sum Nat Nat
  | 0, left, _ => Sum.inr left
  | fuel + 1, left, right =>
    if left < right then
      let mid := left + (right - left) / 2
      let x := xs.getD mid 0
      if x < v then binarySearchAux xs v fuel (mid + 1) right
      else if v < x then binarySearchAux xs v fuel left mid
      else Sum.inl mid
    else Sum.inr left

/-- Rust `slice::binary_search` on the whole slice: `Sum.inl i` models
`Ok(i)` (exact hit), `Sum.inr i` models `Err(i)` (insertion index). -/
def binary_search (xs : List Int) (v : Int) : Sum Nat Nat :=
  binarySearchAux xs v xs.length 0 xs.length

/-- The struct `PositionReport` from `src/rangeset.rs`. -/
structure PositionReport where
  occupied : Bool
  in_range : Bool
  range_start_index : Nat
  index : Nat
deriving Repr, DecidableEq

/-- The `impl From<Result<usize, usize>> for PositionReport` of
`src/rangeset.rs` (the boundary classifier). -/
def reportOfSearch (value : Sum Nat Nat) : PositionReport :=
  let p : Nat × Bool :=
    match value with
    | Sum.inl i => (i, true)
    | Sum.inr i => (i, false)
  let index := p.1
  let hit_n := p.2
  let is_low := index % 2 == 0
  let range_start_index := if is_low then index else index - 1
  let in_range := (!hit_n && !is_low) || (hit_n && is_low)
  { occupied := hit_n
    in_range := in_range
    range_start_index := range_start_index
    index := index }

namespace RangeSet

/-- `RangeSet::position_report`: one binary search turned into a
`PositionReport`. -/
def position_report (xs : List Int) (n : Int) : PositionReport :=
  reportOfSearch (binary_search xs n)

/-- `RangeSet::is_in_range`. -/
def is_in_range (xs : List Int) (n : Int) : Bool :=
  (position_report xs n).in_range

/-- `RangeSet::len`: stored-boundary-count divided by two. -/
def len (xs : List Int) : Nat := xs.length / 2

/-- The `RangeIterator` of `src/rangeset.rs`, reified as the list of
consecutive boundary pairs (it stops as soon as `get(index)` or
`get(index + 1)` is out of bounds). -/
def iter_ranges : List Int → List Interval
  | a :: b :: rest => (a, b) :: iter_ranges rest
  | _ => []

/-- `RangeSet::size`: sum of `range_size` over `iter_ranges`. -/
def size (xs : List Int) : Int :=
  ((iter_ranges xs).map Ranging.range_size).sum

/-- The `while cur_index < right_index.index` loop of
`RangeSet::overlapping_ranges`, walking the stored sequence in steps of 2
and stopping at the first out-of-bounds access. The first `Nat` is
structural recursion fuel kept at least `stop - cur` by every call site, so
it never runs out before the loop condition fails. -/
def orLoop (xs : List Int) : Nat → Nat → Nat → List (Nat × Int × Int)
  | 0, _, _ => []
  | fuel + 1, stop, cur =>
    if cur < stop then
      match xs[cur]?, xs[cur + 1]? with
      | some low, some high => (cur, low, high) :: orLoop xs fuel stop (cur + 2)
      | _, _ => []
    else []

/-- `RangeSet::overlapping_ranges`. The source also computes a
`last_range_index` binding that it never reads; it is omitted here. -/
def overlapping_ranges (xs : List Int) (range : Interval) : List (Nat × Int × Int) :=
  let left_index := position_report xs range.1
  let right_index := position_report xs range.2
  orLoop xs right_index.index right_index.index left_index.range_start_index

/-- `RangeSet::insert`, with explicit recursion fuel for the slow fallback
path's `self.insert(range_accumelator)` call. Each numbered comment names
the source line of the branch it translates. The debug `println!` statements
at lines 130-132 and 245 have no effect on the stored state and are omitted. -/
def insertFuel : Nat → List Int → Interval → Option (List Int)
  | 0, _, _ => none
  | fuel + 1, xs, new_range =>
    let len := xs.length
    let li := position_report xs new_range.1
    let ri := position_report xs new_range.2
    let marker := !ri.in_range && ri.occupied
    -- line 134: append beyond any existing range / empty vector
    if li.index == len || len == 0 then
      some (xs ++ [new_range.1, new_range.2])
    -- line 142: insert before first range
    else if li.index == 0 && ri.index == 0 && !ri.in_range then
      some (new_range.1 :: new_range.2 :: xs)
    -- line 161: exact hit on last range, new range extends beyond the array
    else if li.in_range && ri.index == len &&
        li.range_start_index + 2 == ri.range_start_index then
      some (xs.set (len - 1) new_range.2)
    -- line 170/171: adjacent indices, extend a low boundary downward
    else if li.index + 1 == ri.index && (!li.in_range && (ri.in_range || marker)) then
      some (xs.set li.range_start_index new_range.1)
    -- line 176: adjacent indices, already covered
    else if li.index + 1 == ri.index && (li.in_range && ri.in_range || marker) then
      some xs
    -- line 184: same index, left slot is an end: extend it
    else if li.index == ri.index && (li.occupied && !li.in_range) then
      some (xs.set li.index new_range.2)
    -- line 190: same index, right slot is a start: extend it
    else if li.index == ri.index && (ri.occupied && ri.in_range) then
      some (xs.set ri.index new_range.2)
    -- line 196: same index, no overlap with anything: plain insert
    else if li.index == ri.index && (!li.in_range && !ri.in_range) then
      some ((xs.insertIdx li.index new_range.2).insertIdx li.index new_range.1)
    -- line 203: fully overlapping an existing range
    else if li.index == ri.index && (li.in_range && ri.in_range) then
      some xs
    -- line 207: overlapped by the existing range
    else if li.index == ri.index &&
        (li.in_range && (ri.in_range || (ri.occupied && !ri.in_range))) then
      some xs
    -- line 215/222: two sequential ranges, overlapping both: drop the pair between
    else if li.range_start_index + 2 == ri.range_start_index &&
        ((li.occupied && !li.in_range) || li.in_range || li.index == 0) &&
        (ri.in_range || marker) then
      some ((xs.eraseIdx (li.range_start_index + 1)).eraseIdx (li.range_start_index + 1))
    -- line 231: overwrite both boundaries of the range in between
    else if li.range_start_index + 2 == ri.range_start_index &&
        (!li.in_range && !li.occupied && !ri.in_range) then
      some ((xs.set li.range_start_index new_range.1).set
        (li.range_start_index + 1) new_range.2)
    -- line 238: adjacent indices, left slot is an end: extend it
    else if li.index + 1 == ri.index && !ri.in_range && (li.occupied && !li.in_range) then
      some (xs.set li.index new_range.2)
    -- line 245: slow fallback: scan, remove, merge, re-insert
    else
      let ovs := overlapping_ranges xs new_range
      let st := ovs.foldl
        (fun (st : List Int × Interval × Nat) o =>
          let ys := (st.1.eraseIdx (o.1 - st.2.2)).eraseIdx (o.1 - st.2.2)
          (ys, Ranging.merge st.2.1 (o.2.1, o.2.2), st.2.2 + 2))
        (xs, new_range, 0)
      insertFuel fuel st.1 st.2.1

/-- `RangeSet::insert` entry point: `length + 1` fuel strictly dominates the
possible recursion depth (see the module docstring), so `none` means the
source program diverges. -/
def insert (xs : List Int) (new_range : Interval) : Option (List Int) :=
  insertFuel (xs.length + 1) xs new_range

/-- `RangeSet::remove`. `none` models a panic of the source (`.expect` on a
missing high boundary, or `Ranging::remove` reaching `panic!`), or
divergence of a nested `insert`. -/
def remove (xs : List Int) (cut : Interval) : Option (List Int) :=
  let len := xs.length
  let li := position_report xs cut.1
  let ri := position_report xs cut.2
  -- line 288: nothing to remove
  if len == li.index then some xs
  else
    -- lines 346-360: complex situation: scan, remove and re-insert
    let complexPath : Option (List Int) :=
      let ranges := overlapping_ranges xs cut
      match ranges.foldlM
          (fun (st : List Int × Nat × List Interval) r => do
            let ys := (st.1.eraseIdx (r.1 - st.2.1)).eraseIdx (r.1 - st.2.1)
            let pieces ← Ranging.remove (r.2.1, r.2.2) cut
            pure (ys, st.2.1 + 2, st.2.2 ++ pieces))
          (xs, 0, ([] : List Interval)) with
      | none => none
      | some st => st.2.2.foldlM (fun acc r => insert acc r) st.1
    -- line 297: simple case, only one other range
    if li.range_start_index == ri.range_start_index then
      match xs[li.range_start_index]? with
      | none => some xs -- line 301: beyond any other range
      | some low =>
        match xs[li.range_start_index + 1]? with
        | none => none -- line 310: `.expect("range_start_index + 1 to exist")`
        | some high =>
          -- line 312: no overlap with the sole other range
          if !(Ranging.overlaps (low, high) cut) then some xs
          -- line 317/318: exact match, remove it
          else if li.occupied && li.in_range && (ri.occupied && !ri.in_range) then
            some ((xs.eraseIdx li.index).eraseIdx li.index)
          -- line 325: left matches exactly, right extends beyond cut
          else if li.occupied && li.in_range && high > cut.2 then
            some (xs.set li.range_start_index cut.2)
          -- line 334: cut entirely encompasses range
          else if Ranging.contains_exclusive cut (low, high) then
            some ((xs.eraseIdx li.index).eraseIdx li.index)
          else complexPath
    else complexPath

end RangeSet

/-- One element of an insert/remove history. -/
inductive Op
  | ins (r : Interval)
  | del (r : Interval)
deriving Repr, DecidableEq

/-- Replay of a history through the code under verification, starting from
the empty `RangeSet`; `none` models a panic or divergence along the way. -/
def codeRun (ops : List Op) : Option (List Int) :=
  ops.foldlM
    (fun xs op =>
      match op with
      | Op.ins r => RangeSet.insert xs r
      | Op.del r => RangeSet.remove xs r)
    []

/-- The naive reference model of the spec: the set of covered integers,
replayed with union for insert and difference for remove, under half-open
`[low, high)` semantics, observed through membership of `v`. -/
def specMember (ops : List Op) (v : Int) : Bool :=
  ops.foldl
    (fun acc op =>
      match op with
      | Op.ins r => acc || (decide (r.1 ≤ v) && decide (v < r.2))
      | Op.del r => acc && !(decide (r.1 ≤ v) && decide (v < r.2)))
    false

/-- The §3 invariants of the stored boundary sequence: strictly increasing
and of even length. Pairwise strict increase also yields clauses (c) and
(d) of §3: stored intervals can neither overlap nor touch. -/
def Inv (xs : List Int) : Prop :=
  xs.Pairwise (· < ·) ∧ xs.length % 2 = 0

instance : DecidablePred Inv := fun xs =>
  inferInstanceAs (Decidable (xs.Pairwise (· < ·) ∧ xs.length % 2 = 0))

/-- Two intervals share at least one integer under half-open semantics. -/
def sharesInt (a b : Interval) : Prop :=
  ∃ n : Int, a.1 ≤ n ∧ n < a.2 ∧ b.1 ≤ n ∧ n < b.2

theorem sharesInt_iff (a b : Interval) :
    sharesInt a b ↔ max a.1 b.1 < min a.2 b.2 := by
  constructor
  · rintro ⟨n, h1, h2, h3, h4⟩
    omega
  · intro h
    exact ⟨max a.1 b.1, by omega, by omega, by omega, by omega⟩

instance (a b : Interval) : Decidable (sharesInt a b) :=
  decidable_of_iff _ (sharesInt_iff a b).symm

/-! ### Ranks of values in a sorted boundary sequence -/

/-- Number of stored boundaries strictly below `v`. For a strictly sorted
sequence this is the insertion index reported by a missing binary search. -/
def rank (xs : List Int) (v : Int) : Nat :=
  xs.countP (fun b => decide (b < v))

theorem rank_le_length (xs : List Int) (v : Int) : rank xs v ≤ xs.length :=
  List.countP_le_length _

theorem rank_append (A B : List Int) (v : Int) :
    rank (A ++ B) v = rank A v + rank B v :=
  List.countP_append _ _ _

theorem rank_eq_length (A : List Int) (v : Int) (h : ∀ x ∈ A, x < v) :
    rank A v = A.length :=
  List.countP_eq_length.2 fun a ha => by simpa using h a ha

theorem rank_eq_zero (B : List Int) (v : Int) (h : ∀ x ∈ B, ¬x < v) :
    rank B v = 0 :=
  List.countP_eq_zero.2 fun a ha => by simpa using h a ha

theorem rank_split {A B : List Int} {v : Int} (hA : ∀ x ∈ A, x < v)
    (hB : ∀ x ∈ B, ¬x < v) : rank (A ++ B) v = A.length := by
  rw [rank_append, rank_eq_length A v hA, rank_eq_zero B v hB]
  omega

theorem sorted_getElem_lt {xs : List Int} (hs : xs.Pairwise (· < ·))
    {i j : Nat} (hi : i < xs.length) (hj : j < xs.length) (hij : i < j) :
    xs[i] < xs[j] :=
  List.pairwise_iff_getElem.1 hs i j hi hj hij

theorem sorted_lt_index {xs : List Int} (hs : xs.Pairwise (· < ·))
    {i j : Nat} (hi : i < xs.length) (hj : j < xs.length)
    (h : xs[i] < xs[j]) : i < j := by
  rcases Nat.lt_trichotomy i j with h1 | h1 | h1
  · exact h1
  · subst h1; omega
  · exact absurd (sorted_getElem_lt hs hj hi h1) (by omega)

theorem lt_rank_iff {xs : List Int} (hs : xs.Pairwise (· < ·)) {v : Int} :
    ∀ {i : Nat} (hi : i < xs.length), (i < rank xs v ↔ xs[i] < v) := by
  induction xs with
  | nil => intro i hi; simp at hi
  | cons a t ih =>
    intro i hi
    rcases List.pairwise_cons.1 hs with ⟨ha, ht⟩
    by_cases hav : a < v
    · have hr : rank (a :: t) v = rank t v + 1 := by
        simp [rank, List.countP_cons, hav]
      cases i with
      | zero => simpa [hr] using hav
      | succ k =>
        have hk : k < t.length := by simpa using hi
        have := ih ht hk
        simpa [hr, Nat.succ_lt_succ_iff] using this
    · have h0 : rank t v = 0 := rank_eq_zero _ _ fun x hx => by
        have := ha x hx; omega
      have hr : rank (a :: t) v = 0 := by
        unfold rank at h0 ⊢
        simp [List.countP_cons, hav, h0]
      cases i with
      | zero => simpa [hr] using hav
      | succ k =>
        have hk : k < t.length := by simpa using hi
        have hx : a < t[k] := ha _ (List.getElem_mem hk)
        rw [hr]
        simp only [List.getElem_cons_succ]
        constructor
        · intro hlt; omega
        · intro hlt; omega

theorem sorted_getElem?_inj {xs : List Int} (hs : xs.Pairwise (· < ·))
    {v : Int} {i j : Nat} (h1 : xs[i]? = some v) (h2 : xs[j]? = some v) :
    i = j := by
  obtain ⟨hi, hiv⟩ := List.getElem?_eq_some.1 h1
  obtain ⟨hj, hjv⟩ := List.getElem?_eq_some.1 h2
  rcases Nat.lt_trichotomy i j with h | h | h
  · have := sorted_getElem_lt hs hi hj h; omega
  · exact h
  · have := sorted_getElem_lt hs hj hi h; omega

theorem rank_of_getElem? {xs : List Int} (hs : xs.Pairwise (· < ·))
    {v : Int} {j : Nat} (h : xs[j]? = some v) : rank xs v = j := by
  obtain ⟨hj, hjv⟩ := List.getElem?_eq_some.1 h
  have h1 : ¬j < rank xs v := by
    rw [lt_rank_iff hs hj]; omega
  have h2 : ∀ k, k < j → k < rank xs v := by
    intro k hk
    have hklen : k < xs.length := by omega
    rw [lt_rank_iff hs hklen]
    have := sorted_getElem_lt hs hklen hj hk
    omega
  rcases Nat.eq_zero_or_pos j with hj0 | hj0
  · omega
  · have := h2 (j - 1) (by omega); omega

theorem not_mem_of_rank_getElem {xs : List Int} {v : Int} {i : Nat}
    (hv : v ∉ xs) (hi : i < xs.length) : xs[i] ≠ v := by
  intro h
  exact hv (h ▸ List.getElem_mem hi)

/-! ### Correctness of the embedded standard binary search on sorted input -/

theorem binarySearchAux_hit {xs : List Int} (hs : xs.Pairwise (· < ·))
    {v : Int} {j : Nat} (hj : xs[j]? = some v) :
    ∀ (n left right : Nat), right - left ≤ n → left ≤ j → j < right →
      right ≤ xs.length → binarySearchAux xs v n left right = Sum.inl j := by
  obtain ⟨hjlen, hjv⟩ := List.getElem?_eq_some.1 hj
  intro n
  induction n with
  | zero => intro left right h1 h2 h3 h4; omega
  | succ n ih =>
    intro left right h1 h2 h3 h4
    have hlr : left < right := by omega
    rw [binarySearchAux]
    rw [if_pos hlr]
    have hmid1 : left ≤ left + (right - left) / 2 := by omega
    have hmid2 : left + (right - left) / 2 < right := by omega
    have hmlen : left + (right - left) / 2 < xs.length := by omega
    have hx : xs.getD (left + (right - left) / 2) 0 = xs[left + (right - left) / 2] := by
      rw [List.getD_eq_getElem?_getD, List.getElem?_eq_getElem hmlen]
      rfl
    simp only [hx]
    by_cases hlt : xs[left + (right - left) / 2] < v
    · rw [if_pos hlt]
      have hmj : left + (right - left) / 2 < j := by
        apply sorted_lt_index hs hmlen hjlen
        omega
      exact ih (left + (right - left) / 2 + 1) right (by omega) (by omega) h3 h4
    · rw [if_neg hlt]
      by_cases hgt : v < xs[left + (right - left) / 2]
      · rw [if_pos hgt]
        have hjm : j < left + (right - left) / 2 := by
          apply sorted_lt_index hs hjlen hmlen
          omega
        exact ih left (left + (right - left) / 2) (by omega) h2 hjm (by omega)
      · rw [if_neg hgt]
        have hveq : xs[left + (right - left) / 2] = v := by omega
        have hmv : xs[left + (right - left) / 2]? = some v := by
          rw [List.getElem?_eq_getElem hmlen, hveq]
        exact congrArg Sum.inl (sorted_getElem?_inj hs hmv hj)

theorem binarySearchAux_miss {xs : List Int} (hs : xs.Pairwise (· < ·))
    {v : Int} (hv : v ∉ xs) :
    ∀ (n left right : Nat), right - left ≤ n → left ≤ right →
      right ≤ xs.length →
      (∀ i, i < left → ∀ _h : i < xs.length, xs[i] < v) →
      (∀ i, right ≤ i → ∀ _h : i < xs.length, ¬xs[i] < v) →
      binarySearchAux xs v n left right = Sum.inr (rank xs v) := by
  intro n
  induction n with
  | zero =>
    intro left right h1 h2 h3 hlo hhi
    have heq : left = right := by omega
    subst heq
    rw [binarySearchAux]
    congr 1
    have hle : left ≤ rank xs v := by
      rcases Nat.eq_zero_or_pos left with h0 | h0
      · omega
      · have hl1 : left - 1 < xs.length := by omega
        have := (lt_rank_iff hs hl1).2 (hlo (left - 1) (by omega) hl1)
        omega
    have hge : rank xs v ≤ left := by
      by_cases hlen : left < xs.length
      · have := hhi left (by omega) hlen
        have h2 := lt_rank_iff hs hlen (v := v)
        omega
      · have := rank_le_length xs v
        omega
    omega
  | succ n ih =>
    intro left right h1 h2 h3 hlo hhi
    by_cases hlr : left < right
    · rw [binarySearchAux, if_pos hlr]
      have hmid1 : left ≤ left + (right - left) / 2 := by omega
      have hmid2 : left + (right - left) / 2 < right := by omega
      have hmlen : left + (right - left) / 2 < xs.length := by omega
      have hx : xs.getD (left + (right - left) / 2) 0 = xs[left + (right - left) / 2] := by
        rw [List.getD_eq_getElem?_getD, List.getElem?_eq_getElem hmlen]
        rfl
      simp only [hx]
      by_cases hlt : xs[left + (right - left) / 2] < v
      · rw [if_pos hlt]
        apply ih (left + (right - left) / 2 + 1) right (by omega) (by omega) h3
        · intro i hi hilen
          rcases Nat.lt_or_ge i (left + (right - left) / 2) with hc | hc
          · have := sorted_getElem_lt hs hilen hmlen hc
            omega
          · have : i = left + (right - left) / 2 := by omega
            subst this
            exact hlt
        · exact hhi
      · rw [if_neg hlt]
        by_cases hgt : v < xs[left + (right - left) / 2]
        · rw [if_pos hgt]
          apply ih left (left + (right - left) / 2) (by omega) (by omega) (by omega)
          · exact hlo
          · intro i hi hilen
            rcases Nat.lt_or_ge i xs.length with _ | _
            · have : xs[left + (right - left) / 2] ≤ xs[i] := by
                rcases Nat.lt_or_ge (left + (right - left) / 2) i with hc | hc
                · have := sorted_getElem_lt hs hmlen hilen hc; omega
                · have : i = left + (right - left) / 2 := by omega
                  subst this; omega
              omega
            · omega
        · rw [if_neg hgt]
          have : xs[left + (right - left) / 2] = v := by omega
          exact absurd (this ▸ List.getElem_mem hmlen) hv
    · rw [binarySearchAux, if_neg hlr]
      congr 1
      have hle : left ≤ rank xs v := by
        rcases Nat.eq_zero_or_pos left with h0 | h0
        · omega
        · have hl1 : left - 1 < xs.length := by omega
          have := (lt_rank_iff hs hl1).2 (hlo (left - 1) (by omega) hl1)
          omega
      have hge : rank xs v ≤ left := by
        by_cases hlen : left < xs.length
        · have := hhi left (by omega) hlen
          have h2 := lt_rank_iff hs hlen (v := v)
          omega
        · have := rank_le_length xs v
          omega
      omega

theorem binary_search_hit {xs : List Int} (hs : xs.Pairwise (· < ·))
    {v : Int} {j : Nat} (hj : xs[j]? = some v) :
    binary_search xs v = Sum.inl j := by
  obtain ⟨hjlen, _⟩ := List.getElem?_eq_some.1 hj
  exact binarySearchAux_hit hs hj xs.length 0 xs.length (by omega) (by omega)
    hjlen (by omega)

theorem binary_search_miss {xs : List Int} (hs : xs.Pairwise (· < ·))
    {v : Int} (hv : v ∉ xs) :
    binary_search xs v = Sum.inr (rank xs v) := by
  exact binarySearchAux_miss hs hv xs.length 0 xs.length (by omega) (by omega)
    (by omega) (fun i hi _h => absurd hi (Nat.not_lt_zero i))
    (fun i hi h => absurd h (by omega))

/-! ### The boundary classifier on sorted input -/

theorem position_report_hit {xs : List Int} (hs : xs.Pairwise (· < ·))
    {v : Int} {j : Nat} (hj : xs[j]? = some v) :
    RangeSet.position_report xs v =
      { occupied := true
        in_range := j % 2 == 0
        range_start_index := if j % 2 == 0 then j else j - 1
        index := j } := by
  rw [RangeSet.position_report, binary_search_hit hs hj, reportOfSearch]
  simp

theorem position_report_miss {xs : List Int} (hs : xs.Pairwise (· < ·))
    {v : Int} (hv : v ∉ xs) :
    RangeSet.position_report xs v =
      { occupied := false
        in_range := !(rank xs v % 2 == 0)
        range_start_index := if rank xs v % 2 == 0 then rank xs v else rank xs v - 1
        index := rank xs v } := by
  rw [RangeSet.position_report, binary_search_miss hs hv, reportOfSearch]
  simp

/-! ### Structural helpers on boundary lists -/

theorem two_step_induction {P : List Int → Prop} (h0 : P []) (h1 : ∀ a, P [a])
    (h2 : ∀ a b t, P t → P (a :: b :: t)) : ∀ xs, P xs
  | [] => h0
  | [a] => h1 a
  | a :: b :: t => h2 a b t (two_step_induction h0 h1 h2 t)

theorem insertIdx_at (A B : List Int) (x : Int) :
    (A ++ B).insertIdx A.length x = A ++ x :: B := by
  induction A with
  | nil => simp
  | cons a t ih => simpa [List.insertIdx_succ_cons] using ih

theorem set_at (A B : List Int) (x y : Int) :
    (A ++ x :: B).set A.length y = A ++ y :: B := by
  induction A with
  | nil => simp
  | cons a t ih => simp [List.set_cons_succ, ih]

theorem eraseIdx_at (A B : List Int) (x : Int) :
    (A ++ x :: B).eraseIdx A.length = A ++ B := by
  induction A with
  | nil => simp
  | cons a t ih => simpa [List.eraseIdx_cons_succ] using ih

theorem getElem?_at (A B : List Int) (x : Int) :
    (A ++ x :: B)[A.length]? = some x := by
  rw [List.getElem?_append_right (Nat.le_refl _)]
  simp

theorem getElem?_at1 (A B : List Int) (x y : Int) :
    (A ++ x :: y :: B)[A.length + 1]? = some y := by
  rw [List.getElem?_append_right (by omega)]
  simp [Nat.add_sub_cancel_left]

theorem getElem?_before {A B : List Int} {i : Nat} (h : i < A.length) :
    (A ++ B)[i]? = A[i]? := by
  rw [List.getElem?_append]
  simp [h]

namespace RangeSet

theorem iter_ranges_append {A : List Int} (B : List Int)
    (h : A.length % 2 = 0) :
    iter_ranges (A ++ B) = iter_ranges A ++ iter_ranges B := by
  induction A using two_step_induction with
  | h0 => simp [iter_ranges]
  | h1 a => simp at h
  | h2 a b t ih =>
    have ht : t.length % 2 = 0 := by
      simp at h
      omega
    simp [iter_ranges, ih ht]

theorem iter_ranges_cons (a b : Int) (t : List Int) :
    iter_ranges (a :: b :: t) = (a, b) :: iter_ranges t := rfl

end RangeSet

theorem Inv.pairwise {xs : List Int} (h : Inv xs) : xs.Pairwise (· < ·) := h.1

theorem Inv.even {xs : List Int} (h : Inv xs) : xs.length % 2 = 0 := h.2

theorem inv_drop_pair {A B : List Int} {l h : Int}
    (hinv : Inv (A ++ l :: h :: B)) : Inv (A ++ B) := by
  constructor
  · apply List.Pairwise.sublist _ hinv.1
    apply List.Sublist.append_left
    exact (List.sublist_cons_self h B).trans (List.sublist_cons_self l (h :: B))
  · have := hinv.2
    simp [List.length_append] at this ⊢
    omega

/-! ### Behaviour of `insert` in the two regular positions used by the
proofs: a fresh pair strictly between existing material, and an extension of
a high boundary. -/

namespace RangeSet

/-- Inserting an interval that neither overlaps nor touches any stored
material places its two boundaries at the insertion point and changes
nothing else. `A` is the (even) prefix of boundaries strictly below the new
low, `B` the suffix strictly above the new high. -/
theorem insert_sep (A B : List Int) (a1 a2 : Int)
    (hinv : Inv (A ++ B)) (h12 : a1 < a2)
    (hA : ∀ x ∈ A, x < a1) (hB : ∀ x ∈ B, a2 < x)
    (hAev : A.length % 2 = 0) :
    insert (A ++ B) (a1, a2) = some (A ++ a1 :: a2 :: B) := by
  have hs := hinv.pairwise
  have hn1 : a1 ∉ A ++ B := by
    intro hm
    rcases List.mem_append.1 hm with h | h
    · exact absurd (hA _ h) (by omega)
    · have := hB _ h; omega
  have hn2 : a2 ∉ A ++ B := by
    intro hm
    rcases List.mem_append.1 hm with h | h
    · have := hA _ h; omega
    · have := hB _ h; omega
  have hr1 : rank (A ++ B) a1 = A.length :=
    rank_split hA fun x hx => by have := hB x hx; omega
  have hr2 : rank (A ++ B) a2 = A.length :=
    rank_split (fun x hx => by have := hA x hx; omega)
      (fun x hx => by have := hB x hx; omega)
  have e1 : position_report (A ++ B) a1 =
      ⟨false, false, A.length, A.length⟩ := by
    rw [position_report_miss hs hn1, hr1]
    simp [hAev]
  have e2 : position_report (A ++ B) a2 =
      ⟨false, false, A.length, A.length⟩ := by
    rw [position_report_miss hs hn2, hr2]
    simp [hAev]
  rw [insert, insertFuel, e1, e2]
  rcases B with _ | ⟨b0, B1⟩
  · simp
  · rcases A with _ | ⟨c0, A1⟩
    · simp
    · have hc1 : ((c0 :: A1).length == ((c0 :: A1) ++ b0 :: B1).length) = false := by
        simp [List.length_append]
      have hc4 : ((c0 :: A1).length + 1 == (c0 :: A1).length) = false := by
        simp
      simp only [e1, e2, hc1, hc4]
      simp
      rw [insertIdx_at A1 (b0 :: B1) a2, insertIdx_at A1 (a2 :: b0 :: B1) a1]

/-- Inserting `(m, h2)` when `m` is the high boundary of a stored interval
(at odd position `C.length`) and no boundary lies in `(m, h2]` overwrites
that high boundary with `h2` in place. -/
theorem insert_extend (C B : List Int) (m h2 : Int)
    (hinv : Inv (C ++ m :: B)) (hodd : C.length % 2 = 1)
    (hm : m < h2) (hB : ∀ x ∈ B, h2 < x) :
    insert (C ++ m :: B) (m, h2) = some (C ++ h2 :: B) := by
  have hs := hinv.pairwise
  have hC : ∀ x ∈ C, x < m := by
    intro x hx
    exact (List.pairwise_append.1 hs).2.2 x hx m (by simp)
  have hn2 : h2 ∉ C ++ m :: B := by
    intro hmem
    rcases List.mem_append.1 hmem with h | h
    · have := hC _ h; omega
    · rcases List.mem_cons.1 h with h | h
      · omega
      · have := hB _ h; omega
  have hr2 : rank (C ++ m :: B) h2 = C.length + 1 := by
    have : C ++ m :: B = (C ++ [m]) ++ B := by simp
    rw [this, rank_split]
    · simp
    · intro x hx
      rcases List.mem_append.1 hx with h | h
      · have := hC _ h; omega
      · simp at h; omega
    · intro x hx
      have := hB _ hx; omega
  have hhit : (C ++ m :: B)[C.length]? = some m := getElem?_at C B m
  have e1 : position_report (C ++ m :: B) m =
      ⟨true, false, C.length - 1, C.length⟩ := by
    rw [position_report_hit hs hhit]
    have : (C.length % 2 == 0) = false := by simp [hodd]
    simp [this]
  have e2 : position_report (C ++ m :: B) h2 =
      ⟨false, false, C.length + 1, C.length + 1⟩ := by
    rw [position_report_miss hs hn2, hr2]
    have : ((C.length + 1) % 2 == 0) = true := by simp; omega
    simp [this]
  have hc1 : (C.length == (C ++ m :: B).length) = false := by
    simp [List.length_append]
  have hc6 : (C.length == C.length + 1) = false := by simp
  rw [insert, insertFuel, e1, e2]
  simp only [e1, e2, hc1, hc6]
  simp

/-! ### Characterisation of the `overlapping_ranges` scan -/

theorem orLoop_mem_aux {xs : List Int} (hlen : xs.length % 2 = 0) :
    ∀ (n cur : Nat), cur % 2 = 0 → ∀ (stop : Nat), stop - cur ≤ n →
      ∀ (i : Nat) (l h : Int),
      ((i, l, h) ∈ orLoop xs n stop cur ↔
        cur ≤ i ∧ i < stop ∧ i < xs.length ∧ i % 2 = 0 ∧
          xs[i]? = some l ∧ xs[i + 1]? = some h) := by
  intro n
  induction n with
  | zero =>
    intro cur hcur stop hn i l h
    rw [orLoop]
    simp only [List.not_mem_nil, false_iff]
    intro hc
    omega
  | succ n ih =>
    intro cur hcur stop hn i l h
    by_cases hlt : cur < stop
    · rw [orLoop, if_pos hlt]
      by_cases hcl : cur < xs.length
      · have hcl1 : cur + 1 < xs.length := by omega
        rw [List.getElem?_eq_getElem hcl, List.getElem?_eq_getElem hcl1]
        simp only [List.mem_cons, Prod.mk.injEq]
        rw [ih (cur + 2) (by omega) stop (by omega) i l h]
        constructor
        · rintro (⟨h1, h2, h3⟩ | ⟨h1, h2, h3, h4, h5, h6⟩)
          · subst h1
            refine ⟨Nat.le_refl _, hlt, hcl, hcur, ?_, ?_⟩
            · rw [List.getElem?_eq_getElem hcl, h2]
            · rw [List.getElem?_eq_getElem hcl1, h3]
          · exact ⟨by omega, h2, h3, h4, h5, h6⟩
        · rintro ⟨h1, h2, h3, h4, h5, h6⟩
          by_cases hic : i = cur
          · subst hic
            rw [List.getElem?_eq_getElem hcl] at h5
            rw [List.getElem?_eq_getElem hcl1] at h6
            left
            exact ⟨rfl, (Option.some.injEq _ _ ▸ h5).symm,
              (Option.some.injEq _ _ ▸ h6).symm⟩
          · right
            exact ⟨by omega, h2, h3, h4, h5, h6⟩
      · have h1 : xs[cur]? = none := List.getElem?_eq_none (by omega)
        rw [h1]
        simp only [List.not_mem_nil, false_iff]
        intro hc
        omega
    · rw [orLoop, if_neg hlt]
      simp only [List.not_mem_nil, false_iff]
      intro hc
      omega

theorem orLoop_mem {xs : List Int} (hlen : xs.length % 2 = 0) {cur : Nat}
    (hcur : cur % 2 = 0) (stop : Nat) (i : Nat) (l h : Int) :
    ((i, l, h) ∈ orLoop xs stop stop cur ↔
      cur ≤ i ∧ i < stop ∧ i < xs.length ∧ i % 2 = 0 ∧
        xs[i]? = some l ∧ xs[i + 1]? = some h) :=
  orLoop_mem_aux hlen stop cur hcur stop (by omega) i l h

theorem orLoop_fst_ge {xs : List Int} :
    ∀ (n cur stop : Nat), ∀ e ∈ orLoop xs n stop cur, cur ≤ e.1 := by
  intro n
  induction n with
  | zero =>
    intro cur stop e he
    rw [orLoop] at he
    simp at he
  | succ n ih =>
    intro cur stop e he
    by_cases hlt : cur < stop
    · rw [orLoop, if_pos hlt] at he
      rcases h1 : xs[cur]? with _ | low
      · rw [h1] at he; simp at he
      · rcases h2 : xs[cur + 1]? with _ | high
        · rw [h1, h2] at he; simp at he
        · rw [h1, h2] at he
          rcases List.mem_cons.1 he with h | h
          · subst h; simp
          · have := ih (cur + 2) stop e h
            omega
    · rw [orLoop, if_neg hlt] at he
      simp at he

theorem orLoop_pairwise {xs : List Int} :
    ∀ (n cur stop : Nat),
      List.Pairwise (fun e f => e.1 < f.1) (orLoop xs n stop cur) := by
  intro n
  induction n with
  | zero =>
    intro cur stop
    rw [orLoop]
    exact List.Pairwise.nil
  | succ n ih =>
    intro cur stop
    by_cases hlt : cur < stop
    · rw [orLoop, if_pos hlt]
      rcases h1 : xs[cur]? with _ | low
      · exact List.Pairwise.nil
      · rcases h2 : xs[cur + 1]? with _ | high
        · exact List.Pairwise.nil
        · refine List.pairwise_cons.2 ⟨?_, ih (cur + 2) stop⟩
          intro e he
          have := orLoop_fst_ge n (cur + 2) stop e he
          simp only
          omega
    · rw [orLoop, if_neg hlt]
      exact List.Pairwise.nil



theorem report_rsi_even (xs : List Int) (v : Int) :
    (position_report xs v).range_start_index % 2 = 0 ∧
      (position_report xs v).range_start_index ≤ (position_report xs v).index ∧
      (position_report xs v).index ≤ (position_report xs v).range_start_index + 1 := by
  rcases hbs : binary_search xs v with i | i <;>
    simp only [position_report, hbs, reportOfSearch] <;>
    by_cases hi : i % 2 = 0
  · simp [hi]
  · have hif : (i % 2 == 0) = false := by simp [hi]
    simp [hif]
    omega
  · simp [hi]
  · have hif : (i % 2 == 0) = false := by simp [hi]
    simp [hif]
    omega

theorem report_lt_index {xs : List Int} (hs : xs.Pairwise (· < ·)) (v : Int)
    {k : Nat} (hk : k < xs.length) (h : xs[k] < v) :
    k < (position_report xs v).index := by
  by_cases hv : v ∈ xs
  · obtain ⟨j, hj, hjv⟩ := List.getElem_of_mem hv
    rw [position_report_hit hs (by rw [List.getElem?_eq_getElem hj, hjv])]
    show k < j
    exact sorted_lt_index hs hk hj (by omega)
  · rw [position_report_miss hs hv]
    show k < rank xs v
    exact (lt_rank_iff hs hk).2 h

theorem report_index_le {xs : List Int} (hs : xs.Pairwise (· < ·)) (v : Int)
    {k : Nat} (hk : k < xs.length) (h : ¬xs[k] < v) :
    (position_report xs v).index ≤ k := by
  by_cases hv : v ∈ xs
  · obtain ⟨j, hj, hjv⟩ := List.getElem_of_mem hv
    rw [position_report_hit hs (by rw [List.getElem?_eq_getElem hj, hjv])]
    show j ≤ k
    by_contra hc
    have := sorted_getElem_lt hs hk hj (by omega)
    omega
  · rw [position_report_miss hs hv]
    show rank xs v ≤ k
    have := lt_rank_iff hs hk (v := v)
    omega

theorem report_index_of_getElem {xs : List Int} (hs : xs.Pairwise (· < ·))
    {v : Int} {k : Nat} (hk : k < xs.length) (h : xs[k] = v) :
    (position_report xs v).index = k ∧ (position_report xs v).occupied = true := by
  have hsome : xs[k]? = some v := by rw [List.getElem?_eq_getElem hk, h]
  rw [position_report_hit hs hsome]
  exact ⟨rfl, rfl⟩

theorem overlapping_ranges_mem {xs : List Int} (hinv : Inv xs) {q1 q2 : Int}
    (hq : q1 ≤ q2) (i : Nat) (l h : Int) :
    ((i, l, h) ∈ overlapping_ranges xs (q1, q2) ↔
      i % 2 = 0 ∧ xs[i]? = some l ∧ xs[i + 1]? = some h ∧
        (l < q2 ∧ q1 < h ∨ h = q1)) := by
  have hs := hinv.pairwise
  have hlen := hinv.even
  obtain ⟨hrsi_ev, hrsi_le, hrsi_le1⟩ := report_rsi_even xs q1
  rw [overlapping_ranges]
  simp only
  rw [orLoop_mem hlen hrsi_ev]
  constructor
  · rintro ⟨h1, h2, h3, h4, h5, h6⟩
    have hi1 : i + 1 < xs.length := by omega
    obtain ⟨hwl, hl⟩ := List.getElem?_eq_some.1 h5
    obtain ⟨hwh, hh⟩ := List.getElem?_eq_some.1 h6
    refine ⟨h4, h5, h6, ?_⟩
    have hlq2 : l < q2 := by
      by_cases hv : q2 ∈ xs
      · obtain ⟨j, hj, hjv⟩ := List.getElem_of_mem hv
        have hidx := (report_index_of_getElem hs hj hjv).1
        rw [hidx] at h2
        have := sorted_getElem_lt hs h3 hj h2
        omega
      · have h2r : i < rank xs q2 := by
          rw [position_report_miss hs hv] at h2
          exact h2
        have := (lt_rank_iff hs h3 (v := q2)).1 h2r
        omega
    by_cases hhq : q1 < h
    · exact Or.inl ⟨hlq2, hhq⟩
    · right
      by_contra hc
      have hhlt : xs[i + 1] < q1 := by omega
      have := report_lt_index hs q1 hi1 hhlt
      omega
  · rintro ⟨h4, h5, h6, hcase⟩
    obtain ⟨h3, hl⟩ := List.getElem?_eq_some.1 h5
    obtain ⟨hi1, hh⟩ := List.getElem?_eq_some.1 h6
    rcases hcase with ⟨hlq2, hq1h⟩ | htouch
    · refine ⟨?_, ?_, h3, h4, h5, h6⟩
      · have : (position_report xs q1).index ≤ i + 1 := by
          apply report_index_le hs q1 hi1
          omega
        omega
      · by_cases hv : q2 ∈ xs
        · obtain ⟨j, hj, hjv⟩ := List.getElem_of_mem hv
          have hidx := (report_index_of_getElem hs hj hjv).1
          rw [hidx]
          apply sorted_lt_index hs h3 hj
          omega
        · rw [position_report_miss hs hv]
          show i < rank xs q2
          exact (lt_rank_iff hs h3).2 (by omega)
    · have hq1idx := report_index_of_getElem hs hi1 (by omega : xs[i + 1] = q1)
      have hLidx : (position_report xs q1).index = i + 1 := hq1idx.1
      refine ⟨?_, ?_, h3, h4, h5, h6⟩
      · omega
      · by_cases hv : q2 ∈ xs
        · obtain ⟨j, hj, hjv⟩ := List.getElem_of_mem hv
          have hidx := (report_index_of_getElem hs hj hjv).1
          rw [hidx]
          by_contra hc
          have hji : j ≤ i := by omega
          have hxj : xs[j] ≤ xs[i] := by
            rcases Nat.lt_or_ge j i with hlt | hge
            · have := sorted_getElem_lt hs hj h3 hlt; omega
            · have : j = i := by omega
              subst this; omega
          have := sorted_getElem_lt hs h3 hi1 (by omega)
          omega
        · rw [position_report_miss hs hv]
          show i < rank xs q2
          apply (lt_rank_iff hs h3).2
          have hne : xs[i + 1] ≠ q2 := fun hc => hv (hc ▸ List.getElem_mem hi1)
          have := sorted_getElem_lt hs h3 hi1 (by omega)
          omega

end RangeSet



/-- C4 counterexample: the claim says `overlaps` is true iff
`a.low < b.high && b.low < a.high`, so intervals that merely touch
(`a.high == b.low`) would not overlap; but the code reports the touching
pair `(0,5)`, `(5,10)` as overlapping. -/
theorem C4_overlaps_touching_counterexample :
    Ranging.overlaps (0, 5) (5, 10) = true ∧ ¬((0 : Int) < 10 ∧ (5 : Int) < 5) := by
  decide

/-- C4 amended: `overlaps(a,b)` returns true iff `a.low <= b.high` and
`b.low <= a.high` (non-strict: touching intervals do overlap). -/
theorem C4_overlaps_iff (a b : Interval) :
    Ranging.overlaps a b = true ↔ (a.1 ≤ b.2 ∧ b.1 ≤ a.2) := by
  rw [Ranging.overlaps]
  split_ifs with h1 h2 <;> constructor <;> intro hx <;> first | omega | rfl | simp at hx

/-- C9: the interval subtraction `Ranging::remove` is total: for every pair
of intervals it returns a vector of at most 2 intervals and the
`panic!("Unknown state")` branch is unreachable. -/
theorem C9_subtract_total (a cut : Interval) :
    ∃ l, Ranging.remove a cut = some l ∧ l.length ≤ 2 := by
  rw [Ranging.remove]
  split_ifs with h1 h2 h3 h4
  · exact ⟨[], rfl, by simp⟩
  · exact ⟨_, rfl, by simp⟩
  · exact ⟨_, rfl, by simp⟩
  · exact ⟨_, rfl, by simp⟩
  · exfalso
    simp [Ranging.contains_inclusive, Ranging.contains_exclusive] at h1 h2 h3 h4
    omega

/-- C3 counterexample: on the well-formed, non-overlapping pair
`a = [0,5)`, `cut = [10,20)` the subtraction does not panic: it silently
returns the (wrong) answer `[(0,10)]`. -/
theorem C3_subtract_silent_on_disjoint :
    ¬sharesInt (0, 5) (10, 20) ∧ (0 : Int) ≤ 5 ∧ (10 : Int) ≤ 20 ∧
      Ranging.remove (0, 5) (10, 20) = some [(0, 10)] := by
  refine ⟨?_, by decide, by decide, by decide⟩
  rw [sharesInt_iff]
  decide

/-- C3 amended: on well-formed non-overlapping inputs `Ranging::remove`
never fails loudly: the panic branch is not reached and a result vector is
silently returned. -/
theorem C3_subtract_disjoint_returns (a cut : Interval)
    (_ha : a.1 ≤ a.2) (_hc : cut.1 ≤ cut.2) (_hn : ¬sharesInt a cut) :
    ∃ l, Ranging.remove a cut = some l := by
  rw [Ranging.remove]
  split_ifs with h1 h2 h3 h4
  · exact ⟨[], rfl⟩
  · exact ⟨_, rfl⟩
  · exact ⟨_, rfl⟩
  · exact ⟨_, rfl⟩
  · exfalso
    simp [Ranging.contains_inclusive, Ranging.contains_exclusive] at h1 h2 h3 h4
    omega

/-- C3 amended witness at the concrete non-overlapping input
`a = [0,5)`, `cut = [10,20)`. -/
theorem C3_subtract_disjoint_returns_witness :
    ∃ l, Ranging.remove (0, 5) (10, 20) = some l :=
  C3_subtract_disjoint_returns (0, 5) (10, 20) (by decide) (by decide)
    (by rw [sharesInt_iff]; decide)

/-- C6: for every invariant-satisfying boundary sequence the covered flag,
returned verbatim by `is_in_range`, is true iff the binary search hits at
an even index or misses with an odd insertion index. -/
theorem C6_classifier_covered_iff (xs : List Int) (v : Int) (_hinv : Inv xs) :
    RangeSet.is_in_range xs v = (RangeSet.position_report xs v).in_range ∧
      (RangeSet.is_in_range xs v = true ↔
        (∃ i, binary_search xs v = Sum.inl i ∧ i % 2 = 0) ∨
          (∃ i, binary_search xs v = Sum.inr i ∧ i % 2 = 1)) := by
  refine ⟨rfl, ?_⟩
  rcases hbs : binary_search xs v with i | i <;>
    rw [RangeSet.is_in_range, RangeSet.position_report, hbs, reportOfSearch] <;>
    by_cases hi : i % 2 = 0
  · have : (i % 2 == 0) = true := by simp [hi]
    simp [this, hbs, hi]
  · have : (i % 2 == 0) = false := by simp [hi]
    simp [this, hbs]
    omega
  · have : (i % 2 == 0) = true := by simp [hi]
    simp [this, hbs]
    omega
  · have : (i % 2 == 0) = false := by simp [hi]
    simp [this, hbs]
    omega

/-- C6 witness at `xs = [10,20]`, `v = 15` (covered: the search misses with
insertion index 1). -/
theorem C6_classifier_covered_iff_witness :
    (∃ i, binary_search [10, 20] 15 = Sum.inl i ∧ i % 2 = 0) ∨
      (∃ i, binary_search [10, 20] 15 = Sum.inr i ∧ i % 2 = 1) :=
  (C6_classifier_covered_iff [10, 20] 15 (by decide)).2.mp (by decide)

/-- C1 code bug: after the history `insert [0,2); insert [4,6);
insert [2,4)` (all binary searches along the way run on strictly sorted
vectors) the store is the corrupted `[2,2,4,6]` and `is_in_range 1`
answers false, while the reference set-of-integers model covers 1. -/
theorem C1_membership_model_code_bug :
    codeRun [Op.ins (0, 2), Op.ins (4, 6)] = some [0, 2, 4, 6] ∧
      Inv [0, 2, 4, 6] ∧
      codeRun [Op.ins (0, 2), Op.ins (4, 6), Op.ins (2, 4)] = some [2, 2, 4, 6] ∧
      RangeSet.is_in_range [2, 2, 4, 6] 1 = false ∧
      specMember [Op.ins (0, 2), Op.ins (4, 6), Op.ins (2, 4)] 1 = true := by
  decide

/-- C2 code bug: the same history leaves the stored sequence `[2,2,4,6]`,
which is not strictly increasing, although the state before the last insert
satisfied the invariants. -/
theorem C2_invariant_broken_code_bug :
    codeRun [Op.ins (0, 2), Op.ins (4, 6)] = some [0, 2, 4, 6] ∧
      Inv [0, 2, 4, 6] ∧
      codeRun [Op.ins (0, 2), Op.ins (4, 6), Op.ins (2, 4)] = some [2, 2, 4, 6] ∧
      ¬List.Pairwise (· < ·) [(2 : Int), 2, 4, 6] := by
  decide

/-- C7 code bug: on the invariant state `[0,1,2,3]` (reachable from the
empty set) inserting `[-1,2)` twice is not idempotent: the first insert
stores `[0,3]` (size 3), the second changes it to `[-1,3]` (size 4). -/
theorem C7_insert_not_idempotent_code_bug :
    codeRun [Op.ins (0, 1), Op.ins (2, 3)] = some [0, 1, 2, 3] ∧
      Inv [0, 1, 2, 3] ∧
      RangeSet.insert [0, 1, 2, 3] (-1, 2) = some [0, 3] ∧
      RangeSet.insert [0, 3] (-1, 2) = some [-1, 3] ∧
      RangeSet.size [0, 3] = 3 ∧ RangeSet.size [-1, 3] = 4 ∧
      RangeSet.len [0, 3] = 1 ∧ RangeSet.len [-1, 3] = 1 := by
  decide

/-- C5 counterexample: on the invariant store `[10,20]` the query
`[20,25)` shares no integer with the stored interval `[10,20)`, yet
`overlapping_ranges` returns that interval. -/
theorem C5_overlapping_ranges_touching_counterexample :
    Inv [10, 20] ∧ ¬sharesInt (10, 20) (20, 25) ∧
      RangeSet.overlapping_ranges [10, 20] (20, 25) = [(0, 10, 20)] := by
  refine ⟨by decide, ?_, by decide⟩
  rw [sharesInt_iff]
  decide

/-- C5 amended: `overlapping_ranges(query)` yields, tagged with their even
boundary indices and in increasing index order, exactly the stored
intervals `(low, high)` with `low < query.high` and `query.low < high`,
plus the stored interval whose high boundary equals `query.low`, when one
exists. For a non-empty query the first condition says the interval shares
at least one integer with `query`; for an empty query `[v,v)` it instead
selects the stored interval strictly containing `v`, which shares no
integer with the empty query. -/
theorem C5_overlapping_ranges_characterisation (xs : List Int) (q1 q2 : Int)
    (hinv : Inv xs) (hq : q1 ≤ q2) :
    (∀ i l h, ((i, l, h) ∈ RangeSet.overlapping_ranges xs (q1, q2) ↔
        i % 2 = 0 ∧ xs[i]? = some l ∧ xs[i + 1]? = some h ∧
          (l < q2 ∧ q1 < h ∨ h = q1))) ∧
      List.Pairwise (fun e f => e.1 < f.1)
        (RangeSet.overlapping_ranges xs (q1, q2)) := by
  constructor
  · intro i l h
    exact RangeSet.overlapping_ranges_mem hinv hq i l h
  · rw [RangeSet.overlapping_ranges]
    exact RangeSet.orLoop_pairwise _ _ _

/-- C5 amended witness: on the store `[10,20]` with query `[12,15)` the
scan does return the (overlapping) stored interval `[10,20)` at index 0. -/
theorem C5_overlapping_ranges_characterisation_witness :
    (0, 10, 20) ∈ RangeSet.overlapping_ranges [10, 20] (12, 15) :=
  ((C5_overlapping_ranges_characterisation [10, 20] 12 15 (by decide)
    (by decide)).1 0 10 20).mpr (by decide)



theorem sep_decomp :
    ∀ (xs : List Int), Inv xs → ∀ (a1 a2 : Int),
      (∀ p ∈ RangeSet.iter_ranges xs, a2 < p.1 ∨ p.2 < a1) →
      ∃ A B, xs = A ++ B ∧ A.length % 2 = 0 ∧ (∀ x ∈ A, x < a1) ∧
        (∀ x ∈ B, a2 < x) := by
  intro xs
  induction xs using two_step_induction with
  | h0 =>
    intro _ a1 a2 _
    exact ⟨[], [], rfl, rfl, by simp, by simp⟩
  | h1 a =>
    intro hinv
    exact absurd hinv.even (by simp)
  | h2 l h t ih =>
    intro hinv a1 a2 H
    have hlh : l < h := (List.pairwise_cons.1 hinv.pairwise).1 h (by simp)
    rcases H (l, h) (by rw [RangeSet.iter_ranges_cons]; simp) with hright | hleft
    · refine ⟨[], l :: h :: t, rfl, rfl, by simp, ?_⟩
      intro x hx
      rcases List.mem_cons.1 hx with rfl | hx
      · exact hright
      · rcases List.mem_cons.1 hx with rfl | hx
        · omega
        · have := (List.pairwise_cons.1 hinv.pairwise).1 x (by simp [hx])
          omega
    · have hinvt : Inv t := by
        constructor
        · exact (List.pairwise_cons.1 (List.pairwise_cons.1 hinv.pairwise).2).2
        · have := hinv.even
          simp at this ⊢
          omega
      obtain ⟨A, B, hAB, hev, hA, hB⟩ := ih hinvt a1 a2
        (fun p hp => H p (by rw [RangeSet.iter_ranges_cons]; simp [hp]))
      refine ⟨l :: h :: A, B, by simp [hAB], by simp; omega, ?_, hB⟩
      intro x hx
      rcases List.mem_cons.1 hx with rfl | hx
      · omega
      · rcases List.mem_cons.1 hx with rfl | hx
        · exact hleft
        · exact hA x hx

/-- C8 amended: if the combined interval `[a1, b2)` of the two touching
inserts `[a1, m)`, `[m, b2)` neither overlaps nor touches any stored
interval, then the two inserts produce exactly one new stored interval
`(a1, b2)` and `len` grows by exactly 1. -/
theorem C8_touching_inserts_merge (xs : List Int) (a1 m b2 : Int)
    (hinv : Inv xs) (h1 : a1 < m) (h2 : m < b2)
    (hsep : ∀ p ∈ RangeSet.iter_ranges xs, b2 < p.1 ∨ p.2 < a1) :
    ∃ ys zs, RangeSet.insert xs (a1, m) = some ys ∧
      RangeSet.insert ys (m, b2) = some zs ∧
      RangeSet.len zs = RangeSet.len xs + 1 ∧
      (a1, b2) ∈ RangeSet.iter_ranges zs := by
  obtain ⟨A, B, hAB, hev, hA, hB⟩ := sep_decomp xs hinv a1 b2 hsep
  subst hAB
  have hBm : ∀ x ∈ B, m < x := fun x hx => by have := hB x hx; omega
  have hfirst : RangeSet.insert (A ++ B) (a1, m) = some (A ++ a1 :: m :: B) :=
    RangeSet.insert_sep A B a1 m hinv h1 hA hBm hev
  have hup : A ++ a1 :: m :: B = (A ++ [a1]) ++ m :: B := by simp
  have hpairs : List.Pairwise (· < ·) (A ++ a1 :: m :: B) := by
    rcases List.pairwise_append.1 hinv.pairwise with ⟨hpA, hpB, hcross⟩
    rw [List.pairwise_append]
    refine ⟨hpA, ?_, ?_⟩
    · rw [List.pairwise_cons]
      refine ⟨?_, ?_⟩
      · intro x hx
        rcases List.mem_cons.1 hx with rfl | hx
        · omega
        · have := hB x hx; omega
      · rw [List.pairwise_cons]
        exact ⟨fun x hx => by have := hB x hx; omega, hpB⟩
    · intro x hx y hy
      rcases List.mem_cons.1 hy with rfl | hy
      · exact hA x hx
      · rcases List.mem_cons.1 hy with rfl | hy
        · have := hA x hx; omega
        · exact hcross x hx y hy
  have hinv2 : Inv (A ++ a1 :: m :: B) := by
    refine ⟨hpairs, ?_⟩
    have := hinv.even
    simp at this ⊢
    omega
  have hodd : (A ++ [a1]).length % 2 = 1 := by
    simp [List.length_append]
    omega
  have hsecond : RangeSet.insert ((A ++ [a1]) ++ m :: B) (m, b2) =
      some ((A ++ [a1]) ++ b2 :: B) := by
    apply RangeSet.insert_extend (A ++ [a1]) B m b2 (by rw [← hup]; exact hinv2)
      hodd h2 hB
  refine ⟨A ++ a1 :: m :: B, A ++ a1 :: b2 :: B, hfirst, ?_, ?_, ?_⟩
  · rw [hup, hsecond]
    simp
  · rw [RangeSet.len, RangeSet.len]
    simp [List.length_append]
    have := hinv.even
    simp at this
    omega
  · rw [RangeSet.iter_ranges_append _ hev]
    simp [RangeSet.iter_ranges_cons]

/-- C8 amended witness: two touching inserts `[0,2)`, `[2,4)` into the
empty set produce the single stored interval `(0,4)` and `len` 1. -/
theorem C8_touching_inserts_merge_witness :
    ∃ ys zs, RangeSet.insert [] (0, 2) = some ys ∧
      RangeSet.insert ys (2, 4) = some zs ∧
      RangeSet.len zs = RangeSet.len [] + 1 ∧
      (0, 4) ∈ RangeSet.iter_ranges zs :=
  C8_touching_inserts_merge [] 0 2 4 (by decide) (by decide) (by decide)
    (by intro p hp; simp [RangeSet.iter_ranges] at hp)

end Aoc22

namespace Aoc22

theorem orLoop_nil (xs : List Int) (n stop cur : Nat) (h : ¬cur < stop) :
    RangeSet.orLoop xs n stop cur = [] := by
  cases n with
  | zero => rw [RangeSet.orLoop]
  | succ n => rw [RangeSet.orLoop, if_neg h]

theorem iter_ranges_lt {xs : List Int} (hs : xs.Pairwise (· < ·)) :
    ∀ p ∈ RangeSet.iter_ranges xs, p.1 < p.2 := by
  induction xs using two_step_induction with
  | h0 => simp [RangeSet.iter_ranges]
  | h1 a => simp [RangeSet.iter_ranges]
  | h2 a b t ih =>
    intro p hp
    rw [RangeSet.iter_ranges_cons] at hp
    rcases List.mem_cons.1 hp with rfl | hp
    · exact (List.pairwise_cons.1 hs).1 b (by simp)
    · exact ih (List.pairwise_cons.1 (List.pairwise_cons.1 hs).2).2 p hp

theorem mem_pair_of {xs : List Int} (hev : xs.length % 2 = 0) :
    ∀ x ∈ xs, ∃ p ∈ RangeSet.iter_ranges xs, x = p.1 ∨ x = p.2 := by
  induction xs using two_step_induction with
  | h0 => simp
  | h1 a => simp at hev
  | h2 a b t ih =>
    intro x hx
    have hevt : t.length % 2 = 0 := by simp at hev; omega
    rcases List.mem_cons.1 hx with rfl | hx
    · exact ⟨(x, b), by rw [RangeSet.iter_ranges_cons]; simp, Or.inl rfl⟩
    · rcases List.mem_cons.1 hx with rfl | hx
      · exact ⟨(a, x), by rw [RangeSet.iter_ranges_cons]; simp, Or.inr rfl⟩
      · obtain ⟨p, hp, hor⟩ := ih hevt x hx
        exact ⟨p, by rw [RangeSet.iter_ranges_cons]; simp [hp], hor⟩

theorem mem_pair_decomp {xs : List Int} (hev : xs.length % 2 = 0) {v : Int}
    (hv : v ∈ xs) :
    ∃ C D l h, xs = C ++ l :: h :: D ∧ C.length % 2 = 0 ∧ (v = l ∨ v = h) := by
  induction xs using two_step_induction with
  | h0 => simp at hv
  | h1 a => simp at hev
  | h2 a b t ih =>
    have hevt : t.length % 2 = 0 := by simp at hev; omega
    rcases List.mem_cons.1 hv with rfl | hv
    · exact ⟨[], t, v, b, rfl, rfl, Or.inl rfl⟩
    · rcases List.mem_cons.1 hv with rfl | hv
      · exact ⟨[], t, a, v, rfl, rfl, Or.inr rfl⟩
      · obtain ⟨C, D, l, h, hsplit, hCev, hor⟩ := ih hevt hv
        exact ⟨a :: b :: C, D, l, h, by simp [hsplit], by simp; omega, hor⟩

theorem cut_decomp_le :
    ∀ (xs : List Int), Inv xs → ∀ (c1 c2 : Int),
      (∀ p ∈ RangeSet.iter_ranges xs, c2 ≤ p.1 ∨ p.2 ≤ c1) →
      ∃ A B, xs = A ++ B ∧ A.length % 2 = 0 ∧ (∀ x ∈ A, x ≤ c1) ∧
        (∀ x ∈ B, c2 ≤ x) := by
  intro xs
  induction xs using two_step_induction with
  | h0 =>
    intro _ c1 c2 _
    exact ⟨[], [], rfl, rfl, by simp, by simp⟩
  | h1 a =>
    intro hinv
    exact absurd hinv.even (by simp)
  | h2 l h t ih =>
    intro hinv c1 c2 H
    have hlh : l < h := (List.pairwise_cons.1 hinv.pairwise).1 h (by simp)
    rcases H (l, h) (by rw [RangeSet.iter_ranges_cons]; simp) with hright | hleft
    · refine ⟨[], l :: h :: t, rfl, rfl, by simp, ?_⟩
      intro x hx
      rcases List.mem_cons.1 hx with rfl | hx
      · exact hright
      · rcases List.mem_cons.1 hx with rfl | hx
        · omega
        · have := (List.pairwise_cons.1 hinv.pairwise).1 x (by simp [hx])
          omega
    · have hinvt : Inv t := by
        constructor
        · exact (List.pairwise_cons.1 (List.pairwise_cons.1 hinv.pairwise).2).2
        · have := hinv.even
          simp at this ⊢
          omega
      obtain ⟨A, B, hAB, hev, hA, hB⟩ := ih hinvt c1 c2
        (fun p hp => H p (by rw [RangeSet.iter_ranges_cons]; simp [hp]))
      refine ⟨l :: h :: A, B, by simp [hAB], by simp; omega, ?_, hB⟩
      intro x hx
      rcases List.mem_cons.1 hx with rfl | hx
      · omega
      · rcases List.mem_cons.1 hx with rfl | hx
        · exact hleft
        · have := hA x hx; omega

end Aoc22

namespace Aoc22

theorem remove_sep_right (A B2 : List Int) (b0 b1 c1 c2 : Int)
    (hinv : Inv (A ++ b0 :: b1 :: B2)) (hwf : c1 < c2)
    (hA : ∀ x ∈ A, x < c1) (hAev : A.length % 2 = 0)
    (hB : ∀ x ∈ b0 :: b1 :: B2, c2 ≤ x) :
    RangeSet.remove (A ++ b0 :: b1 :: B2) (c1, c2) = some (A ++ b0 :: b1 :: B2) := by
  have hs := hinv.pairwise
  have hn1 : c1 ∉ A ++ b0 :: b1 :: B2 := by
    intro hm
    rcases List.mem_append.1 hm with hm | hm
    · exact absurd (hA _ hm) (by omega)
    · have := hB _ hm; omega
  have hr1 : rank (A ++ b0 :: b1 :: B2) c1 = A.length :=
    rank_split hA fun x hx => by have := hB x hx; omega
  have e1 : RangeSet.position_report (A ++ b0 :: b1 :: B2) c1 =
      ⟨false, false, A.length, A.length⟩ := by
    rw [position_report_miss hs hn1, hr1]
    simp [hAev]
  have e2 : ∃ o r, RangeSet.position_report (A ++ b0 :: b1 :: B2) c2 =
      ⟨o, r, A.length, A.length⟩ := by
    by_cases hm : c2 ∈ A ++ b0 :: b1 :: B2
    · have hb0 : b0 = c2 := by
        have hble : b0 ≤ c2 := by
          rcases List.mem_append.1 hm with hm | hm
          · have := hA _ hm; omega
          · rcases List.mem_cons.1 hm with he | hm
            · omega
            · rcases List.mem_cons.1 hm with he | hm
              · have h01 : b0 < b1 :=
                  (List.pairwise_cons.1 (List.pairwise_append.1 hs).2.1).1 b1 (by simp)
                omega
              · have : b0 < c2 :=
                  (List.pairwise_cons.1 (List.pairwise_append.1 hs).2.1).1 c2
                    (by simp [hm])
                omega
        have := hB b0 (by simp)
        omega
      have hhit : (A ++ b0 :: b1 :: B2)[A.length]? = some c2 := by
        rw [getElem?_at A (b1 :: B2) b0, hb0]
      refine ⟨true, (A.length % 2 == 0), ?_⟩
      rw [position_report_hit hs hhit]
      simp [hAev]
    · have hr2 : rank (A ++ b0 :: b1 :: B2) c2 = A.length :=
        rank_split (fun x hx => by have := hA x hx; omega)
          (fun x hx => by have := hB x hx; omega)
      refine ⟨false, false, ?_⟩
      rw [position_report_miss hs hm, hr2]
      simp [hAev]
  obtain ⟨o2, r2, e2⟩ := e2
  have hget0 : (A ++ b0 :: b1 :: B2)[A.length]? = some b0 :=
    getElem?_at A (b1 :: B2) b0
  have hget1 : (A ++ b0 :: b1 :: B2)[A.length + 1]? = some b1 :=
    getElem?_at1 A B2 b0 b1
  have hb01 : b0 < b1 :=
    (List.pairwise_cons.1 (List.pairwise_append.1 hs).2.1).1 b1 (by simp)
  have hglen : ((A ++ b0 :: b1 :: B2).length == A.length) = false := by
    simp [List.length_append]
  rw [RangeSet.remove, e1, e2]
  simp only [PositionReport.index, PositionReport.range_start_index,
    PositionReport.occupied, PositionReport.in_range, hglen, hget0, hget1]
  by_cases hc2b : c2 < b0
  · have hov : Ranging.overlaps (b0, b1) (c1, c2) = false := by
      rw [Ranging.overlaps, if_pos (by omega : (c1, c2).2 < (b0, b1).1)]
    simp [hov]
  · have hb0c2 : b0 = c2 := by
      have := hB b0 (by simp)
      omega
    have hov : Ranging.overlaps (b0, b1) (c1, c2) = true := by
      rw [Ranging.overlaps]
      rw [if_neg (by simp; omega), if_neg (by simp; omega)]
    have hce : Ranging.contains_exclusive (c1, c2) (b0, b1) = false := by
      rw [Ranging.contains_exclusive]
      simp
      intro
      omega
    simp only [hov, hce]
    simp only [RangeSet.overlapping_ranges, e1, e2,
      PositionReport.index, PositionReport.range_start_index]
    rw [orLoop_nil _ _ _ _ (by omega)]
    simp [List.foldlM_nil]
end Aoc22

namespace Aoc22

theorem orLoop_one (xs : List Int) (n stop cur : Nat) (hfuel : 0 < n)
    (h : cur < stop) (hstop : ¬cur + 2 < stop) (l h' : Int)
    (h1 : xs[cur]? = some l) (h2 : xs[cur + 1]? = some h') :
    RangeSet.orLoop xs n stop cur = [(cur, l, h')] := by
  cases n with
  | zero => omega
  | succ n =>
    rw [RangeSet.orLoop, if_pos h, h1, h2, orLoop_nil _ _ _ _ hstop]

theorem remove_touch_right (C D : List Int) (lstar c1 c2 : Int)
    (hinv : Inv (C ++ lstar :: c1 :: D)) (hwf : c1 < c2)
    (hCev : C.length % 2 = 0) (hD : ∀ x ∈ D, c2 ≤ x) :
    RangeSet.remove (C ++ lstar :: c1 :: D) (c1, c2) =
      some (C ++ lstar :: c1 :: D) := by
  have hs := hinv.pairwise
  have hC : ∀ x ∈ C, x < lstar :=
    fun x hx => (List.pairwise_append.1 hs).2.2 x hx lstar (by simp)
  have hlc : lstar < c1 :=
    (List.pairwise_cons.1 (List.pairwise_append.1 hs).2.1).1 c1 (by simp)
  have hc1D : ∀ x ∈ D, c1 < x := by
    intro x hx
    exact (List.pairwise_cons.1
      (List.pairwise_cons.1 (List.pairwise_append.1 hs).2.1).2).1 x hx
  have hhit1 : (C ++ lstar :: c1 :: D)[C.length + 1]? = some c1 :=
    getElem?_at1 C D lstar c1
  have e1 : RangeSet.position_report (C ++ lstar :: c1 :: D) c1 =
      ⟨true, false, C.length, C.length + 1⟩ := by
    rw [position_report_hit hs hhit1]
    have hp : ((C.length + 1) % 2 == 0) = false := by simp; omega
    simp [hp]
  have e2 : ∃ o r, RangeSet.position_report (C ++ lstar :: c1 :: D) c2 =
      ⟨o, r, C.length + 2, C.length + 2⟩ := by
    by_cases hm : c2 ∈ C ++ lstar :: c1 :: D
    · rcases D with _ | ⟨d0, D'⟩
      · exfalso
        rcases List.mem_append.1 hm with hm | hm
        · have := hC _ hm; omega
        · rcases List.mem_cons.1 hm with he | hm
          · omega
          · rcases List.mem_cons.1 hm with he | hm
            · omega
            · simp at hm
      · have hd0 : d0 = c2 := by
          have hle : d0 ≤ c2 := by
            rcases List.mem_append.1 hm with hm | hm
            · have := hC _ hm; omega
            · rcases List.mem_cons.1 hm with he | hm
              · omega
              · rcases List.mem_cons.1 hm with he | hm
                · omega
                · rcases List.mem_cons.1 hm with he | hm
                  · omega
                  · have : d0 < c2 := (List.pairwise_cons.1  (List.pairwise_cons.1
                      (List.pairwise_cons.1 (List.pairwise_append.1 hs).2.1).2).2).1
                        c2 (by simp [hm])
                    omega
          have := hD d0 (by simp)
          omega
        have hhit2 : (C ++ lstar :: c1 :: d0 :: D')[C.length + 2]? = some c2 := by
          rw [List.getElem?_append_right (by omega)]
          have : C.length + 2 - C.length = 2 := by omega
          rw [this]
          simp [hd0]
        refine ⟨true, ((C.length + 2) % 2 == 0), ?_⟩
        rw [position_report_hit hs hhit2]
        have hp : ((C.length + 2) % 2 == 0) = true := by simp; omega
        simp [hp]
        omega
    · have hr2 : rank (C ++ lstar :: c1 :: D) c2 = C.length + 2 := by
        have hassoc : C ++ lstar :: c1 :: D = (C ++ [lstar, c1]) ++ D := by simp
        rw [hassoc, rank_split]
        · simp
        · intro x hx
          rcases List.mem_append.1 hx with hx | hx
          · have := hC _ hx; omega
          · simp at hx
            rcases hx with rfl | rfl <;> omega
        · intro x hx
          have := hD x hx; omega
      refine ⟨false, false, ?_⟩
      rw [position_report_miss hs hm, hr2]
      have hp : ((C.length + 2) % 2 == 0) = true := by simp; omega
      simp [hp]
      omega
  obtain ⟨o2, r2, e2⟩ := e2
  have hglen : ((C ++ lstar :: c1 :: D).length == C.length + 1) = false := by
    simp [List.length_append]
  have hrsine : (C.length == C.length + 2) = false := by simp
  have hget0 : (C ++ lstar :: c1 :: D)[C.length]? = some lstar :=
    getElem?_at C (c1 :: D) lstar
  have hrr : Ranging.remove (lstar, c1) (c1, c2) = some [(lstar, c1)] := by
    rw [Ranging.remove]
    rw [if_neg (by simp [Ranging.contains_inclusive]; omega)]
    rw [if_neg (by simp [Ranging.contains_exclusive]; omega)]
    rw [if_neg (by simp; omega)]
    rw [if_pos (by simp; omega)]
  have hins : RangeSet.insert (C ++ D) (lstar, c1) = some (C ++ lstar :: c1 :: D) :=
    RangeSet.insert_sep C D lstar c1 (inv_drop_pair hinv) hlc hC hc1D hCev
  rw [RangeSet.remove, e1, e2]
  simp only [PositionReport.index, PositionReport.range_start_index,
    PositionReport.occupied, PositionReport.in_range, hglen, hrsine]
  simp only [RangeSet.overlapping_ranges, e1, e2, PositionReport.index,
    PositionReport.range_start_index]
  rw [orLoop_one _ _ _ _ (by omega) (by omega) (by omega) lstar c1 hget0 hhit1]
  simp only [List.foldlM_cons, List.foldlM_nil, Nat.sub_zero]
  rw [eraseIdx_at C (c1 :: D) lstar, eraseIdx_at C D c1, hrr]
  simp only [Option.bind_eq_bind, Option.some_bind, List.foldlM_cons,
    List.foldlM_nil, hins]
  simp
  exact hins
end Aoc22

namespace Aoc22

theorem split_pair {xs : List Int} {k : Nat} (hk1 : k + 1 < xs.length) :
    ∃ C a b D, xs = C ++ a :: b :: D ∧ C.length = k ∧
      xs[k]? = some a ∧ xs[k + 1]? = some b := by
  have hk : k < xs.length := by omega
  refine ⟨xs.take k, xs[k], xs[k + 1], xs.drop (k + 2), ?_, ?_, ?_, ?_⟩
  · conv_lhs => rw [← List.take_append_drop k xs]
    rw [List.drop_eq_getElem_cons hk]
    congr 1
    congr 1
    rw [List.drop_eq_getElem_cons hk1]
  · rw [List.length_take]
    omega
  · rw [List.getElem?_eq_getElem hk]
  · rw [List.getElem?_eq_getElem hk1]

theorem remove_empty_cut_mem (xs : List Int) (v : Int) (hinv : Inv xs)
    (hm : v ∈ xs) : RangeSet.remove xs (v, v) = some xs := by
  have hs := hinv.pairwise
  obtain ⟨C, D, l, h, hsplit, hCev, hor⟩ := mem_pair_decomp hinv.even hm
  subst hsplit
  have hlh : l < h :=
    (List.pairwise_cons.1 (List.pairwise_append.1 hs).2.1).1 h (by simp)
  have hC : ∀ x ∈ C, x < l :=
    fun x hx => (List.pairwise_append.1 hs).2.2 x hx l (by simp)
  have hD : ∀ x ∈ D, h < x := by
    intro x hx
    exact (List.pairwise_cons.1
      (List.pairwise_cons.1 (List.pairwise_append.1 hs).2.1).2).1 x hx
  have hget0 : (C ++ l :: h :: D)[C.length]? = some l := getElem?_at C (h :: D) l
  have hget1 : (C ++ l :: h :: D)[C.length + 1]? = some h := getElem?_at1 C D l h
  have hglen0 : ((C ++ l :: h :: D).length == C.length) = false := by
    simp [List.length_append]
  have hglen1 : ((C ++ l :: h :: D).length == C.length + 1) = false := by
    simp [List.length_append]
  rcases hor with rfl | rfl
  · -- v = l : exact hit on a low boundary
    have e : RangeSet.position_report (C ++ v :: h :: D) v =
        ⟨true, true, C.length, C.length⟩ := by
      rw [position_report_hit hs hget0]
      simp [hCev]
    have hov : Ranging.overlaps (v, h) (v, v) = true := by
      rw [Ranging.overlaps]
      rw [if_neg (by simp), if_neg (by simp; omega)]
    rw [RangeSet.remove, e]
    simp only [PositionReport.index, PositionReport.range_start_index,
      PositionReport.occupied, PositionReport.in_range, hglen0, hget0, hget1, hov]
    have hgt : (decide ((h : Int) > (v, v).2)) = true := by simp; omega
    simp only [hgt]
    simp [set_at C (h :: D) v v]
  · -- v = h : exact hit on a high boundary
    have e : RangeSet.position_report (C ++ l :: v :: D) v =
        ⟨true, false, C.length, C.length + 1⟩ := by
      rw [position_report_hit hs hget1]
      have hp : ((C.length + 1) % 2 == 0) = false := by simp; omega
      simp [hp]
    have hov : Ranging.overlaps (l, v) (v, v) = true := by
      rw [Ranging.overlaps]
      rw [if_neg (by simp; omega), if_neg (by simp)]
    have hce : Ranging.contains_exclusive (v, v) (l, v) = false := by
      rw [Ranging.contains_exclusive]
      simp
    have hrr : Ranging.remove (l, v) (v, v) = some [(l, v)] := by
      rw [Ranging.remove]
      rw [if_neg (by simp [Ranging.contains_inclusive]; omega)]
      rw [if_neg (by simp [Ranging.contains_exclusive])]
      rw [if_neg (by simp)]
      rw [if_pos (by simp; omega)]
    have hins : RangeSet.insert (C ++ D) (l, v) = some (C ++ l :: v :: D) :=
      RangeSet.insert_sep C D l v (inv_drop_pair hinv) hlh hC hD hCev
    rw [RangeSet.remove, e]
    simp only [PositionReport.index, PositionReport.range_start_index,
      PositionReport.occupied, PositionReport.in_range, hglen1, hget0, hget1,
      hov, hce]
    simp only [RangeSet.overlapping_ranges, e, PositionReport.index,
      PositionReport.range_start_index]
    rw [orLoop_one _ _ _ _ (by omega) (by omega) (by omega) l v hget0 hget1]
    simp only [List.foldlM_cons, List.foldlM_nil, Nat.sub_zero]
    rw [eraseIdx_at C (v :: D) l, eraseIdx_at C D v, hrr]
    simp only [Option.bind_eq_bind, Option.some_bind, List.foldlM_cons,
      List.foldlM_nil, hins]
    simp
    exact hins
end Aoc22

namespace Aoc22

theorem remove_empty_cut (xs : List Int) (v : Int) (hinv : Inv xs) :
    RangeSet.remove xs (v, v) = some xs := by
  have hs := hinv.pairwise
  by_cases hm : v ∈ xs
  · exact remove_empty_cut_mem xs v hinv hm
  · have hmiss := position_report_miss hs hm (v := v)
    by_cases hr : rank xs v = xs.length
    · -- beyond everything: the first guard returns
      rw [RangeSet.remove, hmiss, hr]
      simp
    · have hrlen : rank xs v < xs.length :=
        Nat.lt_of_le_of_ne (rank_le_length xs v) hr
      by_cases hpar : rank xs v % 2 = 0
      · -- in a gap (or before everything): the candidate pair does not overlap
        have hr1 : rank xs v + 1 < xs.length := by
          have := hinv.even
          omega
        obtain ⟨C, a, b, D, hsplit, hClen, hga, hgb⟩ := split_pair hr1
        have hva : v < a := by
          have h1 : ¬xs[rank xs v] < v := by
            have := lt_rank_iff hs hrlen (v := v)
            omega
          have h2 : xs[rank xs v] ≠ v := not_mem_of_rank_getElem hm hrlen
          have h3 : xs[rank xs v]? = some a := hga
          rw [List.getElem?_eq_getElem hrlen] at h3
          simp at h3
          omega
        have e : RangeSet.position_report xs v =
            ⟨false, false, rank xs v, rank xs v⟩ := by
          rw [hmiss]
          simp [hpar]
        have hov : Ranging.overlaps (a, b) (v, v) = false := by
          rw [Ranging.overlaps]
          rw [if_pos (by simp; omega)]
        have hglen : (xs.length == rank xs v) = false := by simp; omega
        rw [RangeSet.remove, e]
        simp only [PositionReport.index, PositionReport.range_start_index,
          PositionReport.occupied, PositionReport.in_range, hglen]
        rw [show xs[rank xs v]? = some a from hga,
          show xs[rank xs v + 1]? = some b from hgb]
        simp [hov]
      · -- strictly inside a stored interval: split and re-insert
        have hodd : rank xs v % 2 = 1 := by omega
        have hrpos : 0 < rank xs v := by omega
        have hr1 : rank xs v - 1 + 1 < xs.length := by omega
        obtain ⟨C, a, b, D, hsplit, hClen, hga, hgb⟩ := split_pair hr1
        have hCev : C.length % 2 = 0 := by omega
        have hav : a < v := by
          have h1 : rank xs v - 1 < rank xs v := by omega
          have h2 : rank xs v - 1 < xs.length := by omega
          have h3 := (lt_rank_iff hs h2 (v := v)).1 (by omega)
          have h4 : xs[rank xs v - 1]? = some a := hga
          rw [List.getElem?_eq_getElem h2] at h4
          simp at h4
          omega
        have hvb : v < b := by
          have h1 : ¬xs[rank xs v] < v := by
            have := lt_rank_iff hs hrlen (v := v)
            omega
          have h2 : xs[rank xs v] ≠ v := not_mem_of_rank_getElem hm hrlen
          have h3 : xs[rank xs v]? = some b := by
            have := hgb
            have harith : rank xs v - 1 + 1 = rank xs v := by omega
            rwa [harith] at this
          rw [List.getElem?_eq_getElem hrlen] at h3
          simp at h3
          omega
        have e : RangeSet.position_report xs v =
            ⟨false, true, rank xs v - 1, rank xs v⟩ := by
          rw [hmiss]
          have hp : (rank xs v % 2 == 0) = false := by simp [hodd]
          simp [hp]
        subst hsplit
        have hsC : ∀ x ∈ C, x < a :=
          fun x hx => (List.pairwise_append.1 hs).2.2 x hx a (by simp)
        have hsD : ∀ x ∈ D, b < x := by
          intro x hx
          exact (List.pairwise_cons.1
            (List.pairwise_cons.1 (List.pairwise_append.1 hs).2.1).2).1 x hx
        have hget0 : (C ++ a :: b :: D)[rank (C ++ a :: b :: D) v - 1]? = some a := by
          rw [← hClen]
          exact getElem?_at C (b :: D) a
        have hget1 : (C ++ a :: b :: D)[rank (C ++ a :: b :: D) v - 1 + 1]? = some b := by
          rw [← hClen]
          exact getElem?_at1 C D a b
        have hglen : ((C ++ a :: b :: D).length == rank (C ++ a :: b :: D) v) = false := by
          simp
          omega
        have hov : Ranging.overlaps (a, b) (v, v) = true := by
          rw [Ranging.overlaps]
          rw [if_neg (by simp; omega), if_neg (by simp; omega)]
        have hce : Ranging.contains_exclusive (v, v) (a, b) = false := by
          rw [Ranging.contains_exclusive]
          simp
          intro
          omega
        have hrr : Ranging.remove (a, b) (v, v) = some [(a, v), (v, b)] := by
          rw [Ranging.remove]
          rw [if_neg (by simp [Ranging.contains_inclusive]; omega)]
          rw [if_pos (by simp [Ranging.contains_exclusive]; omega)]
        have hins1 : RangeSet.insert (C ++ D) (a, v) = some (C ++ a :: v :: D) :=
          RangeSet.insert_sep C D a v (inv_drop_pair hinv) hav hsC
            (fun x hx => by have := hsD x hx; omega) hCev
        have hpair2 : List.Pairwise (· < ·) (C ++ a :: v :: D) := by
          rcases List.pairwise_append.1 hs with ⟨hpC, hpB, hcross⟩
          rw [List.pairwise_append]
          refine ⟨hpC, ?_, ?_⟩
          · rw [List.pairwise_cons]
            refine ⟨?_, ?_⟩
            · intro x hx
              rcases List.mem_cons.1 hx with rfl | hx
              · omega
              · have := hsD x hx; omega
            · rw [List.pairwise_cons]
              exact ⟨fun x hx => by have := hsD x hx; omega,
                (List.pairwise_cons.1 (List.pairwise_cons.1 hpB).2).2⟩
          · intro x hx y hy
            rcases List.mem_cons.1 hy with he | hy
            · have := hcross x hx a (by simp); omega
            · rcases List.mem_cons.1 hy with he | hy
              · have := hcross x hx a (by simp); omega
              · exact hcross x hx y (by simp [hy])
        have hinv2 : Inv (C ++ a :: v :: D) := by
          refine ⟨hpair2, ?_⟩
          have := hinv.even
          simp at this ⊢
          omega
        have hup : C ++ a :: v :: D = (C ++ [a]) ++ v :: D := by simp
        have hodd2 : (C ++ [a]).length % 2 = 1 := by simp; omega
        have hins2 : RangeSet.insert ((C ++ [a]) ++ v :: D) (v, b) =
            some ((C ++ [a]) ++ b :: D) :=
          RangeSet.insert_extend (C ++ [a]) D v b (by rw [← hup]; exact hinv2)
            hodd2 hvb hsD
        rw [RangeSet.remove, e]
        simp only [PositionReport.index, PositionReport.range_start_index,
          PositionReport.occupied, PositionReport.in_range, hglen, hget0, hget1,
          hov, hce]
        simp only [RangeSet.overlapping_ranges, e, PositionReport.index,
          PositionReport.range_start_index]
        rw [orLoop_one _ _ _ _ (by omega) (by omega) (by omega) a b hget0 hget1]
        simp only [List.foldlM_cons, List.foldlM_nil, Nat.sub_zero]
        rw [← hClen, eraseIdx_at C (b :: D) a, eraseIdx_at C D b, hrr]
        simp only [Option.bind_eq_bind, Option.some_bind, List.foldlM_cons,
          List.foldlM_nil]
        simp
        rw [hins1, Option.some_bind, hup, hins2]
        simp
end Aoc22

namespace Aoc22

theorem iter_ranges_mem_mem :
    ∀ (D : List Int), ∀ p ∈ RangeSet.iter_ranges D, p.1 ∈ D ∧ p.2 ∈ D := by
  intro D
  induction D using two_step_induction with
  | h0 => simp [RangeSet.iter_ranges]
  | h1 a => simp [RangeSet.iter_ranges]
  | h2 a b t ih =>
    intro p hp
    rw [RangeSet.iter_ranges_cons] at hp
    rcases List.mem_cons.1 hp with he | hp
    · subst he
      simp
    · have := ih p hp
      simp [this.1, this.2]

theorem remove_all_below (A : List Int) (c1 c2 : Int) (hinv : Inv A)
    (hA : ∀ x ∈ A, x < c1) : RangeSet.remove A (c1, c2) = some A := by
  have hs := hinv.pairwise
  have hn1 : c1 ∉ A := fun hm => absurd (hA _ hm) (by omega)
  have hr1 : rank A c1 = A.length := rank_eq_length A c1 hA
  have e1 : RangeSet.position_report A c1 =
      ⟨false, !(A.length % 2 == 0), if A.length % 2 == 0 then A.length
        else A.length - 1, A.length⟩ := by
    rw [position_report_miss hs hn1, hr1]
  rw [RangeSet.remove]
  rw [e1]
  simp

/-- C10: removing a well-formed interval that shares no integer with any
stored interval (touching included) leaves the stored boundary sequence
unchanged. -/
theorem C10_remove_disjoint_noop (xs : List Int) (c1 c2 : Int) (hinv : Inv xs)
    (hwf : c1 ≤ c2)
    (H : ∀ p ∈ RangeSet.iter_ranges xs, ¬sharesInt p (c1, c2)) :
    RangeSet.remove xs (c1, c2) = some xs := by
  by_cases hc : c1 = c2
  · subst hc
    exact remove_empty_cut xs c1 hinv
  · have hlt : c1 < c2 := by omega
    by_cases hm : c1 ∈ xs
    · obtain ⟨C, D, l, h, hsplit, hCev, hor⟩ := mem_pair_decomp hinv.even hm
      subst hsplit
      have hs := hinv.pairwise
      have hlh : l < h :=
        (List.pairwise_cons.1 (List.pairwise_append.1 hs).2.1).1 h (by simp)
      have hpair_mem : (l, h) ∈ RangeSet.iter_ranges (C ++ l :: h :: D) := by
        rw [RangeSet.iter_ranges_append _ hCev, RangeSet.iter_ranges_cons]
        simp
      rcases hor with rfl | rfl
      · exfalso
        apply H (c1, h) hpair_mem
        exact ⟨c1, by omega, by omega, by omega, by omega⟩
      · have hDev : D.length % 2 = 0 := by
          have := hinv.even
          simp at this
          omega
        have hDpw : D.Pairwise (· < ·) :=
          (List.pairwise_cons.1
            (List.pairwise_cons.1 (List.pairwise_append.1 hs).2.1).2).2
        have hc1D : ∀ x ∈ D, c1 < x := by
          intro x hx
          exact (List.pairwise_cons.1
            (List.pairwise_cons.1 (List.pairwise_append.1 hs).2.1).2).1 x hx
        have hD : ∀ x ∈ D, c2 ≤ x := by
          intro x hx
          obtain ⟨p, hp, hxp⟩ := mem_pair_of hDev x hx
          obtain ⟨hp1D, hp2D⟩ := iter_ranges_mem_mem D p hp
          have hpxs : p ∈ RangeSet.iter_ranges (C ++ l :: c1 :: D) := by
            rw [RangeSet.iter_ranges_append _ hCev, RangeSet.iter_ranges_cons]
            simp [hp]
          have hplh : p.1 < p.2 := iter_ranges_lt hDpw p hp
          have hnsh := H p hpxs
          rw [sharesInt_iff, max_lt_iff, lt_min_iff, lt_min_iff] at hnsh
          have ha1 : c1 < p.1 := hc1D p.1 hp1D
          rcases hxp with he | he <;> omega
        exact remove_touch_right C D l c1 c2 hinv hlt hCev hD
    · have H2 : ∀ p ∈ RangeSet.iter_ranges xs, c2 ≤ p.1 ∨ p.2 ≤ c1 := by
        intro p hp
        have hplh := iter_ranges_lt hinv.pairwise p hp
        have hnsh := H p hp
        rw [sharesInt_iff, max_lt_iff, lt_min_iff, lt_min_iff] at hnsh
        omega
      obtain ⟨A, B, hAB, hAev, hA, hB⟩ := cut_decomp_le xs hinv c1 c2 H2
      have hAmem : ∀ x ∈ A, x ∈ xs := fun x hx => by
        rw [hAB]
        exact List.mem_append_left _ hx
      have hA2 : ∀ x ∈ A, x < c1 := by
        intro x hx
        have h1 := hA x hx
        have h2 : x ≠ c1 := fun he => hm (he ▸ hAmem x hx)
        omega
      subst hAB
      rcases B with _ | ⟨b0, B1⟩
      · rw [List.append_nil] at *
        exact remove_all_below A c1 c2 hinv hA2
      · rcases B1 with _ | ⟨b1, B2⟩
        · exfalso
          have := hinv.even
          simp [List.length_append] at this
          omega
        · exact remove_sep_right A B2 b0 b1 c1 c2 hinv hlt hA2 hAev hB

/-- C10 witness: removing the disjoint interval `[25,30)` from the store
`{[10,20)}` leaves it unchanged. -/
theorem C10_remove_disjoint_noop_witness :
    RangeSet.remove [10, 20] (25, 30) = some [10, 20] :=
  C10_remove_disjoint_noop [10, 20] 25 30 (by decide) (by decide) (by decide)

end Aoc22

namespace Aoc22

/-- C8 counterexample: on the invariant store `[0,2,6,8]`, which covers no
integer of `a = [2,4)` or `b = [4,6)`, inserting `a` and then `b`
(`a.high = b.low`) does not produce a single covering interval and does not
grow `len` by 1: the code corrupts the store to `[4,4,6,8]`, so `len`
stays 2 and the stored intervals are `(4,4)` and `(6,8)`. -/
theorem C8_touching_insert_counterexample :
    Inv [0, 2, 6, 8] ∧
      RangeSet.is_in_range [0, 2, 6, 8] 2 = false ∧
      RangeSet.is_in_range [0, 2, 6, 8] 3 = false ∧
      RangeSet.is_in_range [0, 2, 6, 8] 4 = false ∧
      RangeSet.is_in_range [0, 2, 6, 8] 5 = false ∧
      RangeSet.insert [0, 2, 6, 8] (2, 4) = some [0, 4, 6, 8] ∧
      RangeSet.insert [0, 4, 6, 8] (4, 6) = some [4, 4, 6, 8] ∧
      RangeSet.len [0, 2, 6, 8] = 2 ∧ RangeSet.len [4, 4, 6, 8] = 2 ∧
      RangeSet.iter_ranges [4, 4, 6, 8] = [(4, 4), (6, 8)] := by
  decide

end Aoc22
